import Mathlib

/-!
Shallow embedding of the ReCirq batch-executable model
(`recirq/quantum_executable.py`) and topology builder
(`recirq/named_topologies.py`).

Python conventions modelled here:
* exceptions are `Except PyErr`; each `PyErr` constructor corresponds to one
  raise site (or language-level error) in the source;
* a Python `dict` built from key/value pairs is an insertion-ordered
  association list: inserting an existing key overwrites the value in place,
  a fresh key is appended (`dictInsert` / `dictOfList`);
* external `cirq` types (circuits, product states, param keys/values) are
  abstracted to opaque values with decidable equality; `freeze` preserves
  content;
* Python's `hash` of a tuple of immutable values is modelled as an injective
  function, i.e. hash comparison is comparison of the tuples themselves.
-/

/-- Python exception outcomes, one constructor per raise site / language
error relevant to `quantum_executable.py` and `named_topologies.py`. -/
inductive PyErr where
  /-- `ValueError("measurement should be a Bitstrings, ...")` -/
  | valueErrorMeasurement : PyErr
  /-- `ValueError("problem_topology should be a ProblemTopology, ...")` -/
  | valueErrorTopology : PyErr
  /-- `ValueError("initial_state should be a ProductState, ...")` -/
  | valueErrorInitialState : PyErr
  /-- `ValueError("Key already exists")` raised while flattening -/
  | valueErrorKeyExists : PyErr
  /-- `TypeError`: iterating a non-iterable (e.g. `None`) -/
  | typeErrorNotIterable : PyErr
  /-- `AttributeError`: calling `.items()` on an object without it -/
  | attributeErrorItems : PyErr
  /-- `NameError`: the name `uuid` is not bound in `quantum_executable.py` -/
  | nameErrorUuid : PyErr
  /-- `dataclasses.FrozenInstanceError` from assigning to a frozen field -/
  | frozenInstanceError : PyErr
  /-- `AssertionError` from a failed `assert` -/
  | assertionError : PyErr
  deriving DecidableEq, Repr

/-- Immutable, hashable Python values appearing in `info` metadata tuples. -/
inductive PyVal where
  | int : Int → PyVal
  | str : String → PyVal
  deriving DecidableEq, Repr

/-- Abstraction of a `cirq` circuit: an opaque content identifier.
`cirq.FrozenCircuit` and `cirq.Circuit` compare by content, and
`circuit.freeze()` preserves content. -/
structure Circuit where
  content : Nat
  deriving DecidableEq, Repr

/-- `circuit.freeze()`: content-preserving conversion to a frozen circuit. -/
def Circuit.freeze (c : Circuit) : Circuit := c

/-- Abstraction of `cirq.ProductState`. -/
structure ProductState where
  content : Nat
  deriving DecidableEq, Repr

/-- Topology annotation stored on an executable (`ProblemTopology`
subclasses, identified by their defining parameters). -/
inductive ProblemTopology where
  | line : Nat → ProblemTopology
  | diagonalRectangle : Nat → Nat → ProblemTopology
  deriving DecidableEq, Repr

/-- The three recognized measurement variants of `quantum_executable.py`:
`Bitstrings(n_repetitions, measure_qubits)`, `FrozenCollectionOfPauliSum`,
`Histogrammer`. -/
inductive Measurement where
  | bitstrings : Int → Option (List Nat) → Measurement
  | frozenCollectionOfPauliSum : Measurement
  | histogrammer : Measurement
  deriving DecidableEq, Repr

/-- The `measurement` argument as dynamically passed: either one of the three
recognized variants or some other Python object (`other`), which fails the
`isinstance` check. -/
inductive MeasurementInput where
  | bitstrings : Int → Option (List Nat) → MeasurementInput
  | frozenCollectionOfPauliSum : MeasurementInput
  | histogrammer : MeasurementInput
  | other : Nat → MeasurementInput
  deriving DecidableEq, Repr

/-- `isinstance(measurement, (Bitstrings, FrozenCollectionOfPauliSum,
Histogrammer))`. -/
def MeasurementInput.isRecognized : MeasurementInput → Bool
  | .bitstrings _ _ => true
  | .frozenCollectionOfPauliSum => true
  | .histogrammer => true
  | .other _ => false

/-- The recognized variant denoted by a recognized input. -/
def MeasurementInput.toMeasurement : MeasurementInput → Measurement
  | .bitstrings n mq => .bitstrings n mq
  | .frozenCollectionOfPauliSum => .frozenCollectionOfPauliSum
  | .histogrammer => .histogrammer
  | .other _ => .histogrammer   -- unreachable: guarded by isRecognized

/-- Parameter key/value pair (`TParamPair`), keys and values abstracted. -/
abbrev ParamPair := String × Int

/-- The `params` argument as dynamically passed: `None`, a tuple of key/value
pairs, or a dict-like `ParamResolver` input. -/
inductive ParamsArg where
  | pynone : ParamsArg
  | tuplePairs : List ParamPair → ParamsArg
  | dict : List ParamPair → ParamsArg
  deriving DecidableEq, Repr

/-- The `info` argument as dynamically passed: `None` (the field default),
a tuple of key/value pairs, or a dict. -/
inductive InfoArg where
  | pynone : InfoArg
  | tuplePairs : List (String × PyVal) → InfoArg
  | dict : List (String × PyVal) → InfoArg
  deriving DecidableEq, Repr

/-- Python dict insertion: overwrite in place if the key exists, else append.
-/
def dictInsert {K V : Type} [DecidableEq K] (d : List (K × V)) (k : K) (v : V) :
    List (K × V) :=
  if d.any (fun kv => kv.1 = k) then
    d.map (fun kv => if kv.1 = k then (k, v) else kv)
  else
    d ++ [(k, v)]

/-- Python `dict(pairs)`: left-to-right insertion. -/
def dictOfList {K V : Type} [DecidableEq K] (l : List (K × V)) : List (K × V) :=
  l.foldl (fun d kv => dictInsert d kv.1 kv.2) []

/-- `cirq.ParamResolver(params).param_dict.items()` for the inputs we model:
`None` resolves to the empty dict, a dict resolves to itself. (A tuple of
pairs never reaches this call in the source: the `isinstance` branch takes
it verbatim.) -/
def paramResolverItems : ParamsArg → List ParamPair
  | .pynone => []
  | .tuplePairs l => dictOfList l
  | .dict l => dictOfList l

/-- `all(isinstance(info_kv, tuple) and len(info_kv) == 2 for info_kv in
params)` — the buggy generator on line 124 of `quantum_executable.py`,
which iterates `params`, not `info`.  Iterating `None` raises `TypeError`;
iterating a tuple of pairs yields pairs (all checks pass); iterating a dict
yields its string keys, which fail the `isinstance(_, tuple)` check unless
the dict is empty (then `all` is vacuously true). -/
def allPairsOverParams : ParamsArg → Except PyErr Bool
  | .pynone => .error .typeErrorNotIterable
  | .tuplePairs _ => .ok true
  | .dict l => .ok l.isEmpty

/-- `info.items()`: only a dict has `.items`; `None` and tuples raise
`AttributeError`. -/
def infoItems : InfoArg → Except PyErr (List (String × PyVal))
  | .pynone => .error .attributeErrorItems
  | .tuplePairs _ => .error .attributeErrorItems
  | .dict l => .ok l

/-- The frozen dataclass `QuantumExecutable`.  NOTE: the `uuid` field in the
source is commented out (line 71), so the value carries no identifier. -/
structure QuantumExecutable where
  circuit : Circuit
  measurement : Measurement
  params : List ParamPair
  info : List (String × PyVal)
  problem_topology : Option ProblemTopology
  initial_state : Option ProductState
  deriving DecidableEq, Repr

/-- `dataclasses.astuple(self)`: the tuple of the six declared dataclass
fields (`_hash` is not a declared field). -/
def QuantumExecutable.astuple (e : QuantumExecutable) :
    Circuit × Measurement × List ParamPair × List (String × PyVal) ×
      Option ProblemTopology × Option ProductState :=
  (e.circuit, e.measurement, e.params, e.info, e.problem_topology,
    e.initial_state)

/-- `hash(e) = self._hash = hash(dataclasses.astuple(self))`, with Python's
tuple hash modelled as injective: two hashes are equal iff the field tuples
are equal. -/
def QuantumExecutable.pyHash (e : QuantumExecutable) :=
  e.astuple

/-- Lines 115–121 of the source: a tuple of key/value pairs is kept
verbatim, anything else is frozen through `cirq.ParamResolver`. -/
def frozenParamsOf (params : ParamsArg) : List ParamPair :=
  match params with
  | .tuplePairs l => l
  | p => paramResolverItems p

/-- Lines 123–128 of the source: `info` is kept verbatim when it is a tuple
AND the (buggy) pair check over `params` passes; otherwise the code falls
back to `tuple(info.items())`. -/
def frozenInfoOf (params : ParamsArg) (info : InfoArg) :
    Except PyErr (List (String × PyVal)) :=
  match info with
  | .tuplePairs l =>
      match allPairsOverParams params with
      | .error err => .error err
      | .ok true => .ok l
      | .ok false => infoItems (.tuplePairs l)
  | i => infoItems i

/-- `QuantumExecutable.__init__`, in source order:
1. freeze the circuit;
2. `isinstance` check on `measurement`, else `ValueError`;
3. normalize `params` (tuple of pairs kept verbatim, otherwise frozen via
   `cirq.ParamResolver`);
4. normalize `info` — with the source's bug of iterating `params` in the
   tuple check (line 124), and `info.items()` in the fallback branch;
5. `isinstance` checks on `problem_topology` / `initial_state` (their
   arguments are modelled as already well-typed options);
6. the supplied `uuid` argument is IGNORED (lines 139–143 are commented
   out), and the constructed value has no identifier field.
The `params`/`info` normalization steps are the helper functions
`frozenParamsOf` and `frozenInfoOf` above. -/
def mkQuantumExecutable (circuit : Circuit) (measurement : MeasurementInput)
    (params : ParamsArg) (info : InfoArg)
    (problem_topology : Option ProblemTopology)
    (initial_state : Option ProductState) (_uuid : Option Nat) :
    Except PyErr QuantumExecutable :=
  if !measurement.isRecognized then
    .error .valueErrorMeasurement
  else
    match frozenInfoOf params info with
    | .error err => .error err
    | .ok frozenInfo =>
        -- the `uuid` argument is accepted but never used (lines 139–143 of
        -- the source are commented out)
        .ok { circuit := circuit.freeze
              measurement := measurement.toMeasurement
              params := frozenParamsOf params
              info := frozenInfo
              problem_topology := problem_topology
              initial_state := initial_state }

/-- Metadata tuple type (`InfoTuple = Tuple[Tuple[str, Any], ...]`). -/
abbrev InfoTuple := List (String × PyVal)

/-- A program-group tree: leaves are `QuantumExecutable`s, internal nodes are
`ProgramGroup(info, programs, uuid)` values. -/
inductive PGTree where
  | exe : QuantumExecutable → PGTree
  | grp : InfoTuple → Nat → List PGTree → PGTree
  deriving Repr

/-- `pg.info` for either node kind. -/
def PGTree.info : PGTree → InfoTuple
  | .exe e => e.info
  | .grp i _ _ => i

/-- `ProgramGroup.__init__` + `__post_init__`: fields are stored verbatim;
then, when `uuid` is `None`, the source evaluates `uuid.uuid4()` — but the
module only imported `UUID` and `uuid4 as make_uuid4`, so the name `uuid`
is unbound and a `NameError` is raised.  A supplied uuid is kept verbatim.
-/
def mkProgramGroup (info : InfoTuple) (programs : List PGTree)
    (uuid : Option Nat) : Except PyErr PGTree :=
  match uuid with
  | none => .error .nameErrorUuid
  | some u => .ok (.grp info u programs)

/-- The merge loop of `_recurse_flatten_programgroup`:
`for k in pg_info: if k in new_info: raise ValueError("Key already exists");
new_info[k] = pg_info[k]`. -/
def mergeLoop (acc : InfoTuple) (l : InfoTuple) : Except PyErr InfoTuple :=
  l.foldlM
    (fun a kv =>
      if a.any (fun x => x.1 = kv.1) then .error .valueErrorKeyExists
      else .ok (a ++ [kv]))
    acc

/-- `new_info = dict(info); pg_info = dict(pg.info); <merge loop>;
tuple(new_info.items())`. -/
def mergeInfo (info : InfoTuple) (pgInfo : InfoTuple) :
    Except PyErr InfoTuple :=
  mergeLoop (dictOfList info) (dictOfList pgInfo)

/-- One entry of the flat list: `(leaf, merged info, parents)`. -/
abbrev FlatEntry := QuantumExecutable × InfoTuple × List PGTree

mutual

/-- `_recurse_flatten_programgroup`: merge this node's info into the
accumulated info, then recurse into children (prepending this group to
`parents`) or emit the leaf entry. -/
def recurseFlatten (pg : PGTree) (info : InfoTuple) (parents : List PGTree) :
    Except PyErr (List FlatEntry) :=
  match pg with
  | .exe e => do
      let newInfo ← mergeInfo info e.info
      pure [(e, newInfo, parents)]
  | .grp gi u children => do
      let newInfo ← mergeInfo info gi
      recurseFlattenList children newInfo (.grp gi u children :: parents)

/-- The `for child in pg.programs` loop, in order. -/
def recurseFlattenList (l : List PGTree) (info : InfoTuple)
    (parents : List PGTree) : Except PyErr (List FlatEntry) :=
  match l with
  | [] => pure []
  | c :: cs => do
      let l1 ← recurseFlatten c info parents
      let l2 ← recurseFlattenList cs info parents
      pure (l1 ++ l2)

end

/-- `flatten_program_group(pg)`. -/
def flatten_program_group (pg : PGTree) : Except PyErr (List FlatEntry) :=
  recurseFlatten pg [] []

mutual

/-- Modelled from the spec: the flat sequence of
`(leaf, merged_metadata, ancestor_chain)` triples, visiting leaves in
depth-first left-to-right order, where merged metadata is the ordered
concatenation of the node metadata from root to leaf (root keys first) and
the ancestor chain lists enclosing groups from nearest parent to root. -/
def specWalk (pg : PGTree) (acc : InfoTuple) (ancestors : List PGTree) :
    List FlatEntry :=
  match pg with
  | .exe e => [(e, acc ++ e.info, ancestors)]
  | .grp gi u children =>
      specWalkList children (acc ++ gi) (.grp gi u children :: ancestors)

/-- Depth-first, left-to-right walk of a child list. -/
def specWalkList (l : List PGTree) (acc : InfoTuple) (ancestors : List PGTree) :
    List FlatEntry :=
  match l with
  | [] => []
  | c :: cs => specWalk c acc ancestors ++ specWalkList cs acc ancestors

end

/-- Modelled from the spec: `specWalk` started at the root. -/
def specFlatten (pg : PGTree) : List FlatEntry := specWalk pg [] []

mutual

/-- All root-to-node metadata key prefixes are duplicate-free (every node's
own keys are distinct and disjoint from all its ancestors' keys). -/
def prefixKeysOk (acc : List String) : PGTree → Bool
  | .exe e => decide ((acc ++ e.info.map Prod.fst).Nodup)
  | .grp gi _ children =>
      decide ((acc ++ gi.map Prod.fst).Nodup) &&
        prefixKeysOkList (acc ++ gi.map Prod.fst) children

/-- `prefixKeysOk` over a child list. -/
def prefixKeysOkList (acc : List String) : List PGTree → Bool
  | [] => true
  | c :: cs => prefixKeysOk acc c && prefixKeysOkList acc cs

end

/-- No metadata key repeats on any root-to-node path of the tree. -/
def pathKeysUnique (pg : PGTree) : Bool := prefixKeysOk [] pg

mutual

/-- The list, over root-to-leaf paths in depth-first order, of the
concatenated metadata keys along each path. -/
def pathKeyLists : PGTree → List (List String)
  | .exe e => [e.info.map Prod.fst]
  | .grp gi _ children =>
      (pathKeyListsL children).map (fun ks => gi.map Prod.fst ++ ks)

/-- `pathKeyLists` over a child list. -/
def pathKeyListsL : List PGTree → List (List String)
  | [] => []
  | c :: cs => pathKeyLists c ++ pathKeyListsL cs

end

/-- Some metadata key appears more than once on a single root-to-leaf path.
-/
def dupKeyOnSomePath (pg : PGTree) : Bool :=
  (pathKeyLists pg).any (fun ks => !decide ks.Nodup)

mutual

/-- Every node's own metadata tuple has pairwise-distinct keys. -/
def nodewiseKeysUnique : PGTree → Bool
  | .exe e => decide ((e.info.map Prod.fst).Nodup)
  | .grp gi _ children =>
      decide ((gi.map Prod.fst).Nodup) && nodewiseKeysUniqueList children

/-- `nodewiseKeysUnique` over a child list. -/
def nodewiseKeysUniqueList : List PGTree → Bool
  | [] => true
  | c :: cs => nodewiseKeysUnique c && nodewiseKeysUniqueList cs

end

/-! ## Immutability (frozen dataclasses)

Both `QuantumExecutable` and `ProgramGroup` are declared with
`@cirq.json_serializable_dataclass(namespace='recirq', frozen=True)`.
A frozen dataclass's generated `__setattr__` raises
`dataclasses.FrozenInstanceError` on every attribute assignment, before the
attribute name or assigned value is used (`object.__setattr__` inside
`__init__`/`__post_init__` bypasses it, which is how construction writes the
fields). -/

/-- Semantics of attribute assignment on a (possibly frozen) dataclass:
`assign` is the would-be field update (any field, any value); a frozen class
rejects it before applying it. -/
def dataclassSetattr {α : Type} (frozen : Bool) (assign : α → α) (x : α) :
    Except PyErr α :=
  if frozen then .error .frozenInstanceError else .ok (assign x)

/-- `QuantumExecutable` is declared `frozen=True` (line 38). -/
def quantumExecutableFrozen : Bool := true

/-- `ProgramGroup` is declared `frozen=True` (line 172). -/
def programGroupFrozen : Bool := true

/-- Attribute assignment on a constructed `QuantumExecutable`. -/
def QuantumExecutable.pySetattr (e : QuantumExecutable)
    (assign : QuantumExecutable → QuantumExecutable) :
    Except PyErr QuantumExecutable :=
  dataclassSetattr quantumExecutableFrozen assign e

/-- Attribute assignment on a constructed `ProgramGroup` node. -/
def PGTree.pySetattr (g : PGTree) (assign : PGTree → PGTree) :
    Except PyErr PGTree :=
  dataclassSetattr programGroupFrozen assign g

/-! ## Topology builder (`named_topologies.py`) -/

/-- A `networkx` graph: node set plus edge set (edges stored as the ordered
pairs passed to `add_edge`; the graph is undirected, so adjacency is the
symmetric closure). -/
structure NXGraph (α : Type) where
  nodes : Finset α
  edges : Finset (α × α)

instance {α : Type} [DecidableEq α] : DecidableEq (NXGraph α) :=
  fun g₁ g₂ =>
    decidable_of_iff (g₁.nodes = g₂.nodes ∧ g₁.edges = g₂.edges)
      (by cases g₁; cases g₂; simp)

/-- The empty graph. -/
def NXGraph.empty {α : Type} [DecidableEq α] : NXGraph α := ⟨∅, ∅⟩

/-- `g.add_edge(u, v)`: adds both endpoints and the edge. -/
def NXGraph.addEdge {α : Type} [DecidableEq α] (g : NXGraph α) (u v : α) :
    NXGraph α :=
  ⟨insert u (insert v g.nodes), insert (u, v) g.edges⟩

/-- `nx.from_edgelist(l)`. -/
def nxFromEdgelist {α : Type} [DecidableEq α] (l : List (α × α)) : NXGraph α :=
  l.foldl (fun g e => g.addEdge e.1 e.2) .empty

/-- The `LineTopology` value: `n_qubits`, a name, and the graph built from
`zip(range(n_qubits), range(1, n_qubits))`. -/
structure LineTopologyV where
  n_qubits : Nat
  name : String
  graph : NXGraph Nat
  deriving DecidableEq

/-- `LineTopology.__init__(n_qubits)` — the source has no failure path. -/
def mkLineTopology (n : Nat) : LineTopologyV :=
  { n_qubits := n
    name := toString n ++ "q-line"
    graph := nxFromEdgelist ((List.range n).zip (List.range' 1 (n - 1))) }

/-- One iteration of the `DiagonalRectangleTopology` cell loop: with
`y = megacol + megarow`, `x = megacol - megarow`, add the four edges from
`(x, y)` to its four neighbours. -/
def diagCellStep (g : NXGraph (Int × Int)) (megarow megacol : Nat) :
    NXGraph (Int × Int) :=
  let y : Int := (megacol : Int) + (megarow : Int)
  let x : Int := (megacol : Int) - (megarow : Int)
  ((((g.addEdge (x, y) (x - 1, y)).addEdge (x, y) (x, y - 1)).addEdge
      (x, y) (x + 1, y)).addEdge (x, y) (x, y + 1))

/-- The graph built by `DiagonalRectangleTopology.__init__`'s double loop
(`for megarow in range(height): for megacol in range(width): ...`). -/
def diagRectGraph (width height : Nat) : NXGraph (Int × Int) :=
  (List.range height).foldl
    (fun g megarow =>
      (List.range width).foldl (fun g megacol => diagCellStep g megarow megacol)
        g)
    .empty

/-- The `DiagonalRectangleTopology` value. -/
structure DiagonalRectangleTopologyV where
  width : Nat
  height : Nat
  name : String
  graph : NXGraph (Int × Int)
  n_qubits : Nat
  deriving DecidableEq

/-- `DiagonalRectangleTopology.__init__(width, height)`: build the graph,
set `n_qubits = 2*width*height + width + height + 1`, then
`assert self.n_qubits == len(g)` (node count), raising `AssertionError` on
mismatch. -/
def mkDiagonalRectangleTopology (width height : Nat) :
    Except PyErr DiagonalRectangleTopologyV :=
  let g := diagRectGraph width height
  let n := 2 * width * height + width + height + 1
  if n = g.nodes.card then
    .ok { width := width
          height := height
          name := toString width ++ "-" ++ toString height ++
            "-diagonal-rectangle"
          graph := g
          n_qubits := n }
  else
    .error .assertionError

/-! ## Placement search (`get_placements`)

`get_placements` enumerates subgraph monomorphisms via the external
`networkx` `GraphMatcher`; each enumerated mapping is a dict from the used
big-graph nodes onto all the small-graph nodes (injective).  The function's
own logic — deduplication by the frozenset of big-graph nodes and
relabeling of the small graph — is modelled over an arbitrary enumerated
list of such mappings. -/

/-- One enumerated monomorphism: the items of the big→small node dict. -/
abbrev Mono := List (Nat × Nat)

/-- `frozenset(big_to_small_map.keys())`: the set of big-graph nodes used. -/
def monoKeys (m : Mono) : Finset Nat := (m.map Prod.fst).toFinset

/-- The matcher's guarantee for each enumerated mapping: dict keys are
distinct, the mapping is injective, and its values are exactly the
small graph's nodes. -/
def isValidMono (small : NXGraph Nat) (m : Mono) : Bool :=
  (m.map Prod.fst).Nodup && (m.map Prod.snd).Nodup &&
    decide ((m.map Prod.snd).toFinset = small.nodes)

/-- `dedupe[frozenset(keys)] = mapping`, iterated over the enumeration. -/
def dedupeFold (monos : List Mono) : List (Finset Nat × Mono) :=
  monos.foldl (fun d m => dictInsert d (monoKeys m) m) []

/-- Function application of a node dict, defaulting to the identity on
missing keys (the `nx.relabel_nodes` convention). -/
def applyMap (f : List (Nat × Nat)) (x : Nat) : Nat :=
  match f.find? (fun kv => kv.1 = x) with
  | some kv => kv.2
  | none => x

/-- `small_to_big_map = {v: k for k, v in big_to_small_map.items()}`. -/
def invertMap (m : Mono) : List (Nat × Nat) :=
  m.map (fun kv => (kv.2, kv.1))

/-- `nx.relabel_nodes(small_graph, small_to_big_map)`. -/
def relabelNodes (g : NXGraph Nat) (f : List (Nat × Nat)) : NXGraph Nat :=
  ⟨g.nodes.image (applyMap f),
    g.edges.image (fun e => (applyMap f e.1, applyMap f e.2))⟩

/-- `get_placements`, given the matcher's enumeration: deduplicate by used
big-node set (last mapping per set wins, first-occurrence order), then
relabel the small graph along each surviving mapping. -/
def get_placements (monos : List Mono) (small_graph : NXGraph Nat) :
    List (NXGraph Nat) :=
  (dedupeFold monos).map (fun kv => relabelNodes small_graph (invertMap kv.2))

/-- Order-preserving deduplication (first occurrence kept), as performed on
dict keys by repeated insertion. -/
def pyDedup {α : Type} [DecidableEq α] (l : List α) : List α :=
  l.foldl (fun acc k => if k ∈ acc then acc else acc ++ [k]) []

/-! ## Concrete example values used by claim witnesses and counterexamples
-/

/-- The example leaf `{n: 2}` of the claim. -/
def exampleLeafN2 : QuantumExecutable :=
  { circuit := ⟨0⟩, measurement := .bitstrings 10 none, params := [],
    info := [("n", .int 2)], problem_topology := none, initial_state := none }

/-- The example group `{p: 3}` containing the leaf `{n: 2}`. -/
def exampleGroupP3 : PGTree := .grp [("p", .int 3)] 0 [.exe exampleLeafN2]

/-- A leaf with empty metadata, used by the duplicate-key examples. -/
def plainLeaf : QuantumExecutable :=
  { circuit := ⟨0⟩, measurement := .bitstrings 10 none, params := [],
    info := [], problem_topology := none, initial_state := none }

/-- A tree whose ROOT's own metadata tuple repeats the key `p`
(`(('p', 1), ('p', 2))`), over a single leaf. -/
def dupWithinNodeTree : PGTree :=
  .grp [("p", .int 1), ("p", .int 2)] 0 [.exe plainLeaf]

/-- An inner group that repeats the key `p` of the outer group, each node's
own tuple being duplicate-free. -/
def dupAcrossNodesTree : PGTree :=
  .grp [("p", .int 3)] 0 [.grp [("p", .int 4)] 1 [.exe plainLeaf]]

/-- The five nodes touched by one unit cell: the cell centre
`(x, y) = (megacol - megarow, megacol + megarow)` and its four
neighbours. -/
def cellNodes (megarow megacol : Nat) : Finset (Int × Int) :=
  let y : Int := (megacol : Int) + (megarow : Int)
  let x : Int := (megacol : Int) - (megarow : Int)
  {(x, y), (x - 1, y), (x, y - 1), (x + 1, y), (x, y + 1)}

/-- Cell centres in rotated coordinates: `(c, r) ↦ (c - r, c + r)`. -/
def centerMap (p : Nat × Nat) : Int × Int :=
  ((p.1 : Int) - (p.2 : Int), (p.1 : Int) + (p.2 : Int))

/-- Neighbour nodes in rotated coordinates:
`(a, b) ↦ (a - b, a + b - 1)`. -/
def oddMap (p : Nat × Nat) : Int × Int :=
  ((p.1 : Int) - (p.2 : Int), (p.1 : Int) + (p.2 : Int) - 1)

/-- The 2-node path graph `0 — 1`, as the small topology of the witness. -/
def smallPathGraph : NXGraph Nat := nxFromEdgelist [(0, 1)]

/-- Three enumerated monomorphisms: two use the same big-node set `{5, 6}`
with opposite correspondences, the third uses `{7, 8}`. -/
def exampleMonos : List Mono :=
  [[(5, 0), (6, 1)], [(6, 0), (5, 1)], [(7, 0), (8, 1)]]

/-! ## Supporting lemmas for the executable constructor -/

/-- `frozenInfoOf` can only fail with the `TypeError` from iterating `None`
or the `AttributeError` from `.items()` — never with the measurement
`ValueError`. -/
theorem frozenInfoOf_ne_measurement_error (p : ParamsArg) (i : InfoArg) :
    frozenInfoOf p i ≠ .error .valueErrorMeasurement := by
  cases i with
  | pynone => simp [frozenInfoOf, infoItems]
  | dict l => simp [frozenInfoOf, infoItems]
  | tuplePairs l =>
      cases p with
      | pynone => simp [frozenInfoOf, allPairsOverParams]
      | tuplePairs pl => simp [frozenInfoOf, allPairsOverParams]
      | dict pl =>
          cases pl <;> simp [frozenInfoOf, allPairsOverParams, infoItems]

/-- Elimination for a successful construction: the measurement passed the
`isinstance` check and every stored field is determined by the arguments.
-/
theorem mkQuantumExecutable_ok_elim {c : Circuit} {m : MeasurementInput}
    {p : ParamsArg} {i : InfoArg} {t : Option ProblemTopology}
    {s : Option ProductState} {u : Option Nat} {e : QuantumExecutable}
    (h : mkQuantumExecutable c m p i t s u = .ok e) :
    m.isRecognized = true ∧ frozenInfoOf p i = .ok e.info ∧
      e.circuit = c.freeze ∧ e.measurement = m.toMeasurement ∧
      e.params = frozenParamsOf p ∧ e.problem_topology = t ∧
      e.initial_state = s := by
  unfold mkQuantumExecutable at h
  by_cases hr : m.isRecognized = true
  · rw [hr] at h
    simp only [Bool.not_true, Bool.false_eq_true, if_false] at h
    cases hfi : frozenInfoOf p i with
    | error err => rw [hfi] at h; exact absurd h (by simp)
    | ok fi =>
        rw [hfi] at h
        injection h with h
        subst h
        simp [hr, hfi]
  · rw [Bool.not_eq_true] at hr
    rw [hr] at h
    simp at h

/-- C1: two leaf programs constructed in two separate calls from identical
circuit, measurement, params and metadata compare equal and hash equal
(the independently supplied identifier arguments do not enter the value,
so identifier generation cannot break equality); two leaves differing only
in the repetition count of their bitstring measurement compare unequal and
hash unequal. -/
theorem executable_structural_eq_and_hash
    (c : Circuit) (m : MeasurementInput) (p : ParamsArg) (i : InfoArg)
    (t : Option ProblemTopology) (s : Option ProductState)
    (u u' u₁ u₂ : Option Nat) (n₁ n₂ : Int) (mq : Option (List Nat))
    (e e' e₁ e₂ : QuantumExecutable)
    (h : mkQuantumExecutable c m p i t s u = .ok e)
    (h' : mkQuantumExecutable c m p i t s u' = .ok e')
    (h₁ : mkQuantumExecutable c (.bitstrings n₁ mq) p i t s u₁ = .ok e₁)
    (h₂ : mkQuantumExecutable c (.bitstrings n₂ mq) p i t s u₂ = .ok e₂)
    (hn : n₁ ≠ n₂) :
    (e = e' ∧ e.pyHash = e'.pyHash) ∧ e₁ ≠ e₂ ∧ e₁.pyHash ≠ e₂.pyHash := by
  have hdet : mkQuantumExecutable c m p i t s u =
      mkQuantumExecutable c m p i t s u' := rfl
  rw [h, h'] at hdet
  injection hdet with hee
  have hm₁ := (mkQuantumExecutable_ok_elim h₁).2.2.2.1
  have hm₂ := (mkQuantumExecutable_ok_elim h₂).2.2.2.1
  simp only [MeasurementInput.toMeasurement] at hm₁ hm₂
  refine ⟨⟨hee, by rw [hee]⟩, ?_, ?_⟩
  · intro hcon
    rw [hcon, hm₂] at hm₁
    injection hm₁ with hx _
    exact hn hx.symm
  · intro hcon
    unfold QuantumExecutable.pyHash QuantumExecutable.astuple at hcon
    have : e₁.measurement = e₂.measurement := congrArg (Prod.fst ∘ Prod.snd) hcon
    rw [hm₁, hm₂] at this
    injection this with h1 _
    exact hn h1

/-- Witness for C1 at the test's inputs: `info={'name': 'example-program'}`,
`Bitstrings(10)` vs `Bitstrings(20)`, params left at `None`. -/
theorem executable_structural_eq_and_hash_witness :
    (({ circuit := ⟨0⟩, measurement := .bitstrings 10 none, params := [],
        info := [("name", .str "example-program")], problem_topology := none,
        initial_state := none } : QuantumExecutable) =
      { circuit := ⟨0⟩, measurement := .bitstrings 10 none, params := [],
        info := [("name", .str "example-program")], problem_topology := none,
        initial_state := none } ∧
      QuantumExecutable.pyHash
        { circuit := ⟨0⟩, measurement := .bitstrings 10 none, params := [],
          info := [("name", .str "example-program")],
          problem_topology := none, initial_state := none } =
      QuantumExecutable.pyHash
        { circuit := ⟨0⟩, measurement := .bitstrings 10 none, params := [],
          info := [("name", .str "example-program")],
          problem_topology := none, initial_state := none }) ∧
    ({ circuit := ⟨0⟩, measurement := .bitstrings 10 none, params := [],
       info := [("name", .str "example-program")], problem_topology := none,
       initial_state := none } : QuantumExecutable) ≠
      { circuit := ⟨0⟩, measurement := .bitstrings 20 none, params := [],
        info := [("name", .str "example-program")], problem_topology := none,
        initial_state := none } ∧
    QuantumExecutable.pyHash
        { circuit := ⟨0⟩, measurement := .bitstrings 10 none, params := [],
          info := [("name", .str "example-program")],
          problem_topology := none, initial_state := none } ≠
      QuantumExecutable.pyHash
        { circuit := ⟨0⟩, measurement := .bitstrings 20 none, params := [],
          info := [("name", .str "example-program")],
          problem_topology := none, initial_state := none } :=
  executable_structural_eq_and_hash ⟨0⟩ (.bitstrings 10 none) .pynone
    (.dict [("name", .str "example-program")]) none none
    (some 1) (some 2) (some 1) (some 2) 10 20 none _ _ _ _
    rfl rfl rfl rfl (by decide)

/-- C8: construction raises the measurement `ValueError` exactly when the
supplied measurement spec is not one of the three recognized variants;
with a recognized variant the result is never that error. -/
theorem measurement_validated_at_construction
    (c : Circuit) (m : MeasurementInput) (p : ParamsArg) (i : InfoArg)
    (t : Option ProblemTopology) (s : Option ProductState) (u : Option Nat) :
    (m.isRecognized = false →
      mkQuantumExecutable c m p i t s u = .error .valueErrorMeasurement) ∧
    (m.isRecognized = true →
      mkQuantumExecutable c m p i t s u ≠ .error .valueErrorMeasurement) := by
  constructor
  · intro hr
    unfold mkQuantumExecutable
    rw [hr]
    simp
  · intro hr hcon
    unfold mkQuantumExecutable at hcon
    rw [hr] at hcon
    simp only [Bool.not_true, Bool.false_eq_true, if_false] at hcon
    cases hfi : frozenInfoOf p i with
    | error err =>
        rw [hfi] at hcon
        injection hcon with herr
        rw [herr] at hfi
        exact frozenInfoOf_ne_measurement_error p i hfi
    | ok fi => rw [hfi] at hcon; exact absurd hcon (by simp)

/-- Witness for C8: the unrecognized-object case errors, the `Histogrammer`
case does not error on that ground. -/
theorem measurement_validated_at_construction_witness :
    mkQuantumExecutable ⟨0⟩ (.other 0) .pynone (.dict []) none none none =
      .error .valueErrorMeasurement ∧
    mkQuantumExecutable ⟨0⟩ .histogrammer .pynone (.dict []) none none none ≠
      .error .valueErrorMeasurement :=
  ⟨(measurement_validated_at_construction ⟨0⟩ (.other 0) .pynone (.dict [])
      none none none).1 (by decide),
   (measurement_validated_at_construction ⟨0⟩ .histogrammer .pynone (.dict [])
      none none none).2 (by decide)⟩

/-- C9: both `QuantumExecutable` and `ProgramGroup` are frozen dataclasses,
so every post-construction attribute assignment — whatever field, whatever
value — fails with `FrozenInstanceError`. -/
theorem frozen_no_field_assignment :
    (∀ (e : QuantumExecutable) (assign : QuantumExecutable → QuantumExecutable),
      e.pySetattr assign = .error .frozenInstanceError) ∧
    (∀ (g : PGTree) (assign : PGTree → PGTree),
      g.pySetattr assign = .error .frozenInstanceError) :=
  ⟨fun _ _ => rfl, fun _ _ => rfl⟩

/-- C10: with tuple-form `info` and `params` left at its default `None`, the
constructor raises `TypeError`, because the validation of `info` iterates
`params`; with an iterable tuple `params` the same tuple-form `info` is
accepted verbatim. -/
theorem info_tuple_iterates_params
    (c : Circuit) (m : MeasurementInput) (l : List (String × PyVal))
    (pl : List ParamPair) (t : Option ProblemTopology)
    (s : Option ProductState) (u : Option Nat)
    (hm : m.isRecognized = true) :
    mkQuantumExecutable c m .pynone (.tuplePairs l) t s u =
      .error .typeErrorNotIterable ∧
    mkQuantumExecutable c m (.tuplePairs pl) (.tuplePairs l) t s u =
      .ok { circuit := c.freeze, measurement := m.toMeasurement, params := pl,
            info := l, problem_topology := t, initial_state := s } := by
  unfold mkQuantumExecutable frozenInfoOf allPairsOverParams frozenParamsOf
  rw [hm]
  simp

/-- Witness for C10 at the test-style inputs. -/
theorem info_tuple_iterates_params_witness :
    mkQuantumExecutable ⟨0⟩ (.bitstrings 10 none) .pynone
        (.tuplePairs [("name", .str "example-program")]) none none none =
      .error .typeErrorNotIterable ∧
    mkQuantumExecutable ⟨0⟩ (.bitstrings 10 none) (.tuplePairs [("a", 1)])
        (.tuplePairs [("name", .str "example-program")]) none none none =
      .ok { circuit := ⟨0⟩, measurement := .bitstrings 10 none,
            params := [("a", 1)],
            info := [("name", .str "example-program")],
            problem_topology := none, initial_state := none } :=
  info_tuple_iterates_params ⟨0⟩ (.bitstrings 10 none)
    [("name", .str "example-program")] [("a", 1)] none none none (by decide)

/-- C4 (evaluates the defect): constructing a group WITHOUT a supplied
identifier raises `NameError` (the module never binds the name `uuid`, so
`uuid.uuid4()` in `__post_init__` fails) instead of generating a fresh
identifier; a supplied group identifier is reused verbatim; and the leaf
constructor ignores its `uuid` argument entirely — the result is identical
for any two supplied identifiers and carries no identifier field.  A leaf
constructed with the `info` argument left at its default `None` also fails
(`None.items()`), rather than succeeding as the claim requires. -/
theorem group_uuid_generation_raises_namerror :
    mkProgramGroup [("name", .str "qaoa-sk")] [] none =
      .error .nameErrorUuid ∧
    mkProgramGroup [("name", .str "qaoa-sk")] [] (some 7) =
      .ok (.grp [("name", .str "qaoa-sk")] 7 []) ∧
    (∀ (c : Circuit) (m : MeasurementInput) (p : ParamsArg) (i : InfoArg)
       (t : Option ProblemTopology) (s : Option ProductState)
       (u u' : Option Nat),
      mkQuantumExecutable c m p i t s u = mkQuantumExecutable c m p i t s u') ∧
    mkQuantumExecutable ⟨0⟩ .histogrammer .pynone .pynone none none none =
      .error .attributeErrorItems :=
  ⟨rfl, rfl, fun _ _ _ _ _ _ _ _ => rfl, rfl⟩

/-! ## Dict and merge lemmas -/

/-- Inserting a fresh key into a dict appends it. -/
theorem dictInsert_of_not_mem {K V : Type} [DecidableEq K]
    {d : List (K × V)} {k : K} {v : V} (h : k ∉ d.map Prod.fst) :
    dictInsert d k v = d ++ [(k, v)] := by
  unfold dictInsert
  rw [if_neg]
  simp only [List.any_eq_true, decide_eq_true_eq, not_exists]
  intro kv hkv
  exact h (List.mem_map.mpr ⟨kv, hkv.1, hkv.2⟩)

/-- Generalized: folding dict insertion of pairs with keys fresh for the
accumulator and pairwise distinct just appends them. -/
theorem foldl_dictInsert_eq_append {K V : Type} [DecidableEq K]
    (l acc : List (K × V)) (h : ((acc ++ l).map Prod.fst).Nodup) :
    l.foldl (fun d kv => dictInsert d kv.1 kv.2) acc = acc ++ l := by
  induction l generalizing acc with
  | nil => simp
  | cons kv rest ih =>
      have hk : kv.1 ∉ acc.map Prod.fst := by
        rw [List.map_append, List.nodup_append] at h
        intro hmem
        exact h.2.2 hmem (by simp)
      rw [List.foldl_cons, dictInsert_of_not_mem hk,
        ih (acc ++ [kv]) (by simpa using h)]
      simp

/-- A pair list with pairwise-distinct keys is its own dict. -/
theorem dictOfList_eq_self {K V : Type} [DecidableEq K]
    {l : List (K × V)} (h : (l.map Prod.fst).Nodup) :
    dictOfList l = l := by
  have := foldl_dictInsert_eq_append l [] (by simpa using h)
  simpa [dictOfList] using this

/-- The keys of any dict are pairwise distinct. -/
theorem dictInsert_keys_nodup {K V : Type} [DecidableEq K]
    {d : List (K × V)} (h : (d.map Prod.fst).Nodup) (k : K) (v : V) :
    ((dictInsert d k v).map Prod.fst).Nodup := by
  unfold dictInsert
  by_cases hmem : d.any (fun kv => kv.1 = k) = true
  · rw [if_pos hmem]
    have : (d.map (fun kv => if kv.1 = k then (k, v) else kv)).map Prod.fst =
        d.map Prod.fst := by
      rw [List.map_map]
      apply List.map_congr_left
      intro kv _
      by_cases hk : kv.1 = k <;> simp [hk]
    rw [this]
    exact h
  · rw [if_neg hmem]
    rw [List.map_append, List.nodup_append]
    refine ⟨h, by simp, ?_⟩
    intro x hx hx'
    simp only [List.map_cons, List.map_nil, List.mem_singleton] at hx'
    subst hx'
    rw [List.any_eq_true] at hmem
    obtain ⟨kv, hkv, hk⟩ := List.mem_map.mp hx
    exact hmem ⟨kv, hkv, by simp [hk]⟩

/-- `dictOfList` always produces pairwise-distinct keys. -/
theorem dictOfList_keys_nodup {K V : Type} [DecidableEq K] (l : List (K × V)) :
    ((dictOfList l).map Prod.fst).Nodup := by
  suffices h : ∀ acc : List (K × V), (acc.map Prod.fst).Nodup →
      ((l.foldl (fun d kv => dictInsert d kv.1 kv.2) acc).map Prod.fst).Nodup by
    exact h [] (by simp)
  induction l with
  | nil => intro acc ha; simpa using ha
  | cons kv rest ih =>
      intro acc ha
      rw [List.foldl_cons]
      exact ih _ (dictInsert_keys_nodup ha kv.1 kv.2)

/-- Elimination for a successful merge loop: every merged key was fresh for
the accumulator, the merged keys are pairwise distinct, and the result is
the concatenation. -/
theorem mergeLoop_ok_elim {acc l m : InfoTuple}
    (h : mergeLoop acc l = .ok m) :
    (∀ kv ∈ l, kv.1 ∉ acc.map Prod.fst) ∧ (l.map Prod.fst).Nodup ∧
      m = acc ++ l := by
  induction l generalizing acc with
  | nil =>
      refine ⟨by simp, by simp, ?_⟩
      unfold mergeLoop at h
      simp only [List.foldlM_nil] at h
      injection h with h
      simp [h.symm]
  | cons kv rest ih =>
      unfold mergeLoop at h
      rw [List.foldlM_cons] at h
      by_cases hmem : acc.any (fun x => x.1 = kv.1) = true
      · rw [if_pos hmem] at h
        have herr : (Except.error PyErr.valueErrorKeyExists :
            Except PyErr InfoTuple) = .ok m := h
        cases herr
      · rw [if_neg hmem] at h
        have hrest : mergeLoop (acc ++ [kv]) rest = .ok m := h
        obtain ⟨hfresh, hnd, hm⟩ := ih hrest
        have hknotin : kv.1 ∉ acc.map Prod.fst := by
          intro hx
          rw [List.any_eq_true] at hmem
          obtain ⟨x, hxmem, hxk⟩ := List.mem_map.mp hx
          exact hmem ⟨x, hxmem, by simp [hxk]⟩
        refine ⟨?_, ?_, ?_⟩
        · intro x hx
          cases hx with
          | head => exact hknotin
          | tail _ hx' =>
              intro hin
              exact hfresh x hx' (by simp [hin])
        · rw [List.map_cons, List.nodup_cons]
          refine ⟨?_, hnd⟩
          intro hmem'
          obtain ⟨x, hxmem, hxk⟩ := List.mem_map.mp hmem'
          exact hfresh x hxmem (by simp [hxk])
        · rw [hm]
          simp


/-- Introduction for a successful merge loop. -/
theorem mergeLoop_ok_intro {acc l : InfoTuple}
    (hfresh : ∀ kv ∈ l, kv.1 ∉ acc.map Prod.fst)
    (hnd : (l.map Prod.fst).Nodup) :
    mergeLoop acc l = .ok (acc ++ l) := by
  induction l generalizing acc with
  | nil => rw [List.append_nil]; rfl
  | cons kv rest ih =>
      unfold mergeLoop
      rw [List.foldlM_cons]
      have hmem : acc.any (fun x => x.1 = kv.1) = false := by
        rw [Bool.eq_false_iff]
        intro hany
        rw [List.any_eq_true] at hany
        obtain ⟨x, hxmem, hxk⟩ := hany
        exact hfresh kv (by simp)
          (List.mem_map.mpr ⟨x, hxmem, by simpa using hxk⟩)
      rw [hmem]
      simp only [Bool.false_eq_true, if_false]
      have hfresh' : ∀ x ∈ rest, x.1 ∉ (acc ++ [kv]).map Prod.fst := by
        intro x hx
        rw [List.map_append, List.mem_append]
        rintro (hin | hin)
        · exact hfresh x (by simp [hx]) hin
        · simp only [List.map_cons, List.map_nil, List.mem_singleton] at hin
          rw [List.map_cons, List.nodup_cons] at hnd
          exact hnd.1 (List.mem_map.mpr ⟨x, hx, hin⟩)
      have hnd' : (rest.map Prod.fst).Nodup := by
        rw [List.map_cons, List.nodup_cons] at hnd
        exact hnd.2
      have := ih hfresh' hnd'
      unfold mergeLoop at this
      rw [show (acc ++ [kv]) ++ rest = acc ++ kv :: rest by simp] at this
      exact this

/-- `mergeInfo` succeeds, and concatenates, exactly on key-disjoint inputs
with internally duplicate-free keys. -/
theorem mergeInfo_ok_of_nodup {acc l : InfoTuple}
    (h : ((acc ++ l).map Prod.fst).Nodup) :
    mergeInfo acc l = .ok (acc ++ l) := by
  rw [List.map_append, List.nodup_append] at h
  unfold mergeInfo
  rw [dictOfList_eq_self h.1, dictOfList_eq_self h.2.1]
  exact mergeLoop_ok_intro
    (fun kv hkv hmem => h.2.2 hmem (List.mem_map.mpr ⟨kv, hkv, rfl⟩)) h.2.1

/-- A successful `mergeInfo` on a node whose own keys are duplicate-free
yields the concatenation, whose keys are duplicate-free when the
accumulator's were. -/
theorem mergeInfo_ok_elim {acc l m : InfoTuple}
    (h : mergeInfo acc l = .ok m) (hl : (l.map Prod.fst).Nodup)
    (ha : (acc.map Prod.fst).Nodup) :
    m = acc ++ l ∧ ((acc ++ l).map Prod.fst).Nodup := by
  unfold mergeInfo at h
  rw [dictOfList_eq_self hl, dictOfList_eq_self ha] at h
  obtain ⟨hfresh, hnd, hm⟩ := mergeLoop_ok_elim h
  refine ⟨hm, ?_⟩
  rw [List.map_append, List.nodup_append]
  refine ⟨ha, hnd, ?_⟩
  intro x hx hx'
  obtain ⟨kv, hkv, hk⟩ := List.mem_map.mp hx'
  exact hfresh kv hkv (hk ▸ hx)

/-- Any error produced anywhere inside the flatten recursion is the
duplicate-key `ValueError`. -/
theorem mergeLoop_error_elim {acc l : InfoTuple} {err : PyErr}
    (h : mergeLoop acc l = .error err) : err = .valueErrorKeyExists := by
  induction l generalizing acc with
  | nil =>
      unfold mergeLoop at h
      simp only [List.foldlM_nil] at h
      cases h
  | cons kv rest ih =>
      unfold mergeLoop at h
      rw [List.foldlM_cons] at h
      by_cases hmem : acc.any (fun x => x.1 = kv.1) = true
      · rw [if_pos hmem] at h
        have herr : (Except.error PyErr.valueErrorKeyExists :
            Except PyErr InfoTuple) = .error err := h
        injection herr with herr
        exact herr.symm
      · rw [if_neg hmem] at h
        exact @ih (acc ++ [kv]) h

mutual

/-- On a tree with no duplicate key on any root-to-node path, the flatten
recursion succeeds and agrees with the spec walk. -/
theorem recurseFlatten_eq_spec (pg : PGTree) (acc : InfoTuple)
    (ps : List PGTree) (h : prefixKeysOk (acc.map Prod.fst) pg = true)
    (ha : (acc.map Prod.fst).Nodup) :
    recurseFlatten pg acc ps = .ok (specWalk pg acc ps) := by
  cases pg with
  | exe e =>
      unfold prefixKeysOk at h
      rw [decide_eq_true_eq] at h
      have hnodup : ((acc ++ e.info).map Prod.fst).Nodup := by
        rw [List.map_append]; exact h
      simp only [recurseFlatten, specWalk]
      rw [mergeInfo_ok_of_nodup hnodup]
      rfl
  | grp gi u children =>
      unfold prefixKeysOk at h
      rw [Bool.and_eq_true, decide_eq_true_eq] at h
      have hnodup : ((acc ++ gi).map Prod.fst).Nodup := by
        rw [List.map_append]; exact h.1
      have hlist := recurseFlattenList_eq_spec children (acc ++ gi)
        (.grp gi u children :: ps)
        (by rw [List.map_append]; exact h.2) hnodup
      simp only [recurseFlatten, specWalk]
      rw [mergeInfo_ok_of_nodup hnodup]
      exact hlist

/-- List version of `recurseFlatten_eq_spec`. -/
theorem recurseFlattenList_eq_spec (l : List PGTree) (acc : InfoTuple)
    (ps : List PGTree) (h : prefixKeysOkList (acc.map Prod.fst) l = true)
    (ha : (acc.map Prod.fst).Nodup) :
    recurseFlattenList l acc ps = .ok (specWalkList l acc ps) := by
  cases l with
  | nil => rfl
  | cons c cs =>
      unfold prefixKeysOkList at h
      rw [Bool.and_eq_true] at h
      have h1 := recurseFlatten_eq_spec c acc ps h.1 ha
      have h2 := recurseFlattenList_eq_spec cs acc ps h.2 ha
      simp only [recurseFlattenList, specWalkList]
      rw [h1]
      show recurseFlattenList cs acc ps >>= _ = _
      rw [h2]
      rfl

end

/-- C2: for every program-group tree with no duplicate metadata key on any
root-to-node path, `flatten_program_group` returns exactly the
spec-modelled sequence of `(leaf, merged_metadata, ancestor_chain)`
triples: leaves in depth-first left-to-right order, merged metadata the
root-first ordered union along the path, ancestors from nearest parent to
root. -/
theorem flatten_refines_depth_first_spec (pg : PGTree)
    (h : pathKeysUnique pg = true) :
    flatten_program_group pg = .ok (specFlatten pg) :=
  recurseFlatten_eq_spec pg [] [] h List.nodup_nil

/-- Witness for C2: flattening the group `{p: 3}` over the leaf `{n: 2}`
yields merged metadata `(('p', 3), ('n', 2))` in that key order, with the
group as the single ancestor. -/
theorem flatten_refines_depth_first_spec_witness :
    flatten_program_group exampleGroupP3 =
      .ok [(exampleLeafN2, [("p", .int 3), ("n", .int 2)],
            [exampleGroupP3])] :=
  (flatten_refines_depth_first_spec exampleGroupP3 (by decide)).trans rfl

mutual

/-- Any error escaping the flatten recursion is the duplicate-key
`ValueError`. -/
theorem recurseFlatten_error_elim (pg : PGTree) (acc : InfoTuple)
    (ps : List PGTree) (err : PyErr)
    (h : recurseFlatten pg acc ps = .error err) :
    err = .valueErrorKeyExists := by
  cases pg with
  | exe e =>
      simp only [recurseFlatten] at h
      cases hmi : mergeInfo acc e.info with
      | error e' =>
          rw [hmi] at h
          have herr : (Except.error e' : Except PyErr (List FlatEntry)) =
              .error err := h
          injection herr with herr
          subst herr
          exact mergeLoop_error_elim hmi
      | ok ni =>
          rw [hmi] at h
          have : (Except.ok [(e, ni, ps)] : Except PyErr (List FlatEntry)) =
              .error err := h
          cases this
  | grp gi u children =>
      simp only [recurseFlatten] at h
      cases hmi : mergeInfo acc gi with
      | error e' =>
          rw [hmi] at h
          have herr : (Except.error e' : Except PyErr (List FlatEntry)) =
              .error err := h
          injection herr with herr
          subst herr
          exact mergeLoop_error_elim hmi
      | ok ni =>
          rw [hmi] at h
          exact recurseFlattenList_error_elim children ni
            (.grp gi u children :: ps) err h

/-- List version of `recurseFlatten_error_elim`. -/
theorem recurseFlattenList_error_elim (l : List PGTree) (acc : InfoTuple)
    (ps : List PGTree) (err : PyErr)
    (h : recurseFlattenList l acc ps = .error err) :
    err = .valueErrorKeyExists := by
  cases l with
  | nil =>
      have : (Except.ok [] : Except PyErr (List FlatEntry)) = .error err := h
      cases this
  | cons c cs =>
      simp only [recurseFlattenList] at h
      cases h1 : recurseFlatten c acc ps with
      | error e' =>
          rw [h1] at h
          have herr : (Except.error e' : Except PyErr (List FlatEntry)) =
              .error err := h
          injection herr with herr
          subst herr
          exact recurseFlatten_error_elim c acc ps _ h1
      | ok l1 =>
          rw [h1] at h
          have h' : recurseFlattenList cs acc ps >>=
              (fun l2 => pure (l1 ++ l2)) = .error err := h
          cases h2 : recurseFlattenList cs acc ps with
          | error e' =>
              rw [h2] at h'
              have herr : (Except.error e' : Except PyErr (List FlatEntry)) =
                  .error err := h'
              injection herr with herr
              subst herr
              exact recurseFlattenList_error_elim cs acc ps _ h2
          | ok l2 =>
              rw [h2] at h'
              have : (Except.ok (l1 ++ l2) :
                  Except PyErr (List FlatEntry)) = .error err := h'
              cases this

end

mutual

/-- If the flatten recursion succeeds on a tree whose individual nodes have
duplicate-free keys, then no root-to-leaf path repeats a key. -/
theorem recurseFlatten_ok_paths (pg : PGTree) (acc : InfoTuple)
    (ps : List PGTree) (r : List FlatEntry)
    (h : recurseFlatten pg acc ps = .ok r)
    (hn : nodewiseKeysUnique pg = true) (ha : (acc.map Prod.fst).Nodup) :
    ∀ ks ∈ pathKeyLists pg, (acc.map Prod.fst ++ ks).Nodup := by
  cases pg with
  | exe e =>
      simp only [recurseFlatten] at h
      unfold nodewiseKeysUnique at hn
      rw [decide_eq_true_eq] at hn
      cases hmi : mergeInfo acc e.info with
      | error e' =>
          rw [hmi] at h
          have : (Except.error e' : Except PyErr (List FlatEntry)) = .ok r := h
          cases this
      | ok ni =>
          have := (mergeInfo_ok_elim hmi hn ha).2
          rw [List.map_append] at this
          intro ks hks
          simp only [pathKeyLists, List.mem_singleton] at hks
          subst hks
          exact this
  | grp gi u children =>
      simp only [recurseFlatten] at h
      unfold nodewiseKeysUnique at hn
      rw [Bool.and_eq_true, decide_eq_true_eq] at hn
      cases hmi : mergeInfo acc gi with
      | error e' =>
          rw [hmi] at h
          have : (Except.error e' : Except PyErr (List FlatEntry)) = .ok r := h
          cases this
      | ok ni =>
          rw [hmi] at h
          obtain ⟨hni, hnodup⟩ := mergeInfo_ok_elim hmi hn.1 ha
          subst hni
          have hrec := recurseFlattenList_ok_paths children (acc ++ gi)
            (.grp gi u children :: ps) r h hn.2 hnodup
          intro ks hks
          simp only [pathKeyLists, List.mem_map] at hks
          obtain ⟨ks', hks', rfl⟩ := hks
          have := hrec ks' hks'
          rw [List.map_append, List.append_assoc] at this
          exact this

/-- List version of `recurseFlatten_ok_paths`. -/
theorem recurseFlattenList_ok_paths (l : List PGTree) (acc : InfoTuple)
    (ps : List PGTree) (r : List FlatEntry)
    (h : recurseFlattenList l acc ps = .ok r)
    (hn : nodewiseKeysUniqueList l = true) (ha : (acc.map Prod.fst).Nodup) :
    ∀ ks ∈ pathKeyListsL l, (acc.map Prod.fst ++ ks).Nodup := by
  cases l with
  | nil => intro ks hks; cases hks
  | cons c cs =>
      simp only [recurseFlattenList] at h
      unfold nodewiseKeysUniqueList at hn
      rw [Bool.and_eq_true] at hn
      cases h1 : recurseFlatten c acc ps with
      | error e' =>
          rw [h1] at h
          have : (Except.error e' : Except PyErr (List FlatEntry)) = .ok r := h
          cases this
      | ok l1 =>
          rw [h1] at h
          have h' : recurseFlattenList cs acc ps >>=
              (fun l2 => pure (l1 ++ l2)) = .ok r := h
          cases h2 : recurseFlattenList cs acc ps with
          | error e' =>
              rw [h2] at h'
              have : (Except.error e' : Except PyErr (List FlatEntry)) =
                  .ok r := h'
              cases this
          | ok l2 =>
              intro ks hks
              simp only [pathKeyListsL, List.mem_append] at hks
              cases hks with
              | inl hksc =>
                  exact recurseFlatten_ok_paths c acc ps l1 h1 hn.1 ha ks hksc
              | inr hkscs =>
                  exact recurseFlattenList_ok_paths cs acc ps l2 h2 hn.2 ha
                    ks hkscs

end

/-- Counterexample to C3 as stated: this tree has the key `p` twice on its
single root-to-leaf path, yet flattening does NOT raise — `dict(pg.info)`
silently collapses the within-node duplicate (later value wins) and the
flattened metadata is `(('p', 2),)`, the pair `('p', 1)` having been
silently overwritten. -/
theorem flatten_within_node_duplicate_not_raised :
    dupKeyOnSomePath dupWithinNodeTree = true ∧
    flatten_program_group dupWithinNodeTree =
      .ok [(plainLeaf, [("p", .int 2)], [dupWithinNodeTree])] :=
  ⟨by decide, rfl⟩

/-- C3 (amended): for every tree whose individual nodes have
duplicate-free metadata keys, if some key appears in two distinct nodes on
a single root-to-leaf path then flattening raises the duplicate-key
`ValueError`; the duplicate is not detected at construction time (group
construction performs no key validation). -/
theorem flatten_cross_node_duplicate_raises (pg : PGTree)
    (hn : nodewiseKeysUnique pg = true) (hd : dupKeyOnSomePath pg = true) :
    flatten_program_group pg = .error .valueErrorKeyExists ∧
    (∀ (info : InfoTuple) (programs : List PGTree) (u : Nat),
      mkProgramGroup info programs (some u) = .ok (.grp info u programs)) := by
  refine ⟨?_, fun _ _ _ => rfl⟩
  cases hres : flatten_program_group pg with
  | ok r =>
      exfalso
      unfold dupKeyOnSomePath at hd
      rw [List.any_eq_true] at hd
      obtain ⟨ks, hks, hdup⟩ := hd
      have hnd := recurseFlatten_ok_paths pg [] [] r hres hn
        List.nodup_nil ks hks
      simp only [List.map_nil, List.nil_append] at hnd
      simp only [Bool.not_eq_true', decide_eq_false_iff_not] at hdup
      exact hdup hnd
  | error err =>
      rw [recurseFlatten_error_elim pg [] [] err hres]

/-- Witness for the amended C3: two ancestors both defining `p` make
flattening raise the duplicate-key error, while both groups construct
without complaint. -/
theorem flatten_cross_node_duplicate_raises_witness :
    flatten_program_group dupAcrossNodesTree =
      .error .valueErrorKeyExists ∧
    (∀ (info : InfoTuple) (programs : List PGTree) (u : Nat),
      mkProgramGroup info programs (some u) = .ok (.grp info u programs)) :=
  flatten_cross_node_duplicate_raises dupAcrossNodesTree (by decide)
    (by decide)

/-! ## Line topology (C6) -/

/-- `zip(range'(a, k+1), range'(a+1, k))` pairs consecutive integers. -/
theorem zip_range'_consecutive (k : Nat) :
    ∀ a : Nat, (List.range' a (k + 1)).zip (List.range' (a + 1) k) =
      (List.range' a k).map (fun i => (i, i + 1)) := by
  induction k with
  | zero => intro a; rfl
  | succ k ih =>
      intro a
      rw [List.range'_succ a (k + 1), List.range'_succ (a + 1) k,
        List.zip_cons_cons, ← List.range'_succ (a + 1) k, ih (a + 1),
        List.range'_succ a k, List.map_cons]

/-- For `n ≥ 1`, the edge list of `LineTopology(n)` is
`[(i, i+1) for i in range(n-1)]`. -/
theorem lineTopology_edgelist (n : Nat) (hn : 1 ≤ n) :
    (List.range n).zip (List.range' 1 (n - 1)) =
      (List.range (n - 1)).map (fun i => (i, i + 1)) := by
  obtain ⟨m, rfl⟩ : ∃ m, n = m + 1 := ⟨n - 1, by omega⟩
  rw [List.range_eq_range', List.range_eq_range']
  simpa using zip_range'_consecutive m 0

/-- The graph of the consecutive-pairs edge list over `range (m+1)`. -/
theorem nxFromEdgelist_consecutive (m : Nat) (hm : 1 ≤ m) :
    nxFromEdgelist ((List.range m).map (fun i => (i, i + 1))) =
      ⟨Finset.range (m + 1),
        (Finset.range m).image (fun i => (i, i + 1))⟩ := by
  induction m with
  | zero => omega
  | succ m ih =>
      by_cases hm1 : m = 0
      · subst hm1
        decide
      · have hG := ih (by omega)
        rw [List.range_succ, List.map_append]
        unfold nxFromEdgelist at hG ⊢
        rw [List.foldl_append, hG]
        simp only [List.map_cons, List.map_nil, List.foldl_cons,
          List.foldl_nil]
        unfold NXGraph.addEdge
        congr 1
        · ext x
          simp only [Finset.mem_insert, Finset.mem_range]
          omega
        · rw [Finset.range_succ, Finset.image_insert]

/-- C6 (amended): for every `n ≥ 2`, `LineTopology(n)` has node set
`{0, …, n-1}` and edge set `{(i, i+1) : i < n-1}` — a path over those
nodes — and records `n_qubits = n`. -/
theorem line_topology_path (n : Nat) (hn : 2 ≤ n) :
    (mkLineTopology n).n_qubits = n ∧
    (mkLineTopology n).graph.nodes = Finset.range n ∧
    (mkLineTopology n).graph.edges =
      (Finset.range (n - 1)).image (fun i => (i, i + 1)) := by
  have hgraph : (mkLineTopology n).graph =
      ⟨Finset.range n, (Finset.range (n - 1)).image (fun i => (i, i + 1))⟩ := by
    show nxFromEdgelist ((List.range n).zip (List.range' 1 (n - 1))) = _
    rw [lineTopology_edgelist n (by omega),
      nxFromEdgelist_consecutive (n - 1) (by omega)]
    have hsub : n - 1 + 1 = n := by omega
    rw [hsub]
  exact ⟨rfl, by rw [hgraph], by rw [hgraph]⟩

/-- Counterexample to C6 as stated: `LineTopology(1)` has an EMPTY node set
(the zip of `range(1)` with `range(1, 1)` is empty), not `{0}`; and
`LineTopology(0)` does not fail — the constructor has no failure path and
returns the empty graph. -/
theorem line_topology_claim_counterexample :
    (mkLineTopology 1).graph.nodes = (∅ : Finset Nat) ∧
    (mkLineTopology 1).graph.nodes ≠ Finset.range 1 ∧
    mkLineTopology 0 =
      { n_qubits := 0, name := "0q-line", graph := NXGraph.empty } :=
  ⟨by decide, by decide, by decide⟩

/-- Witness for the amended C6 at `n = 4`: nodes `{0,1,2,3}`, path edges
`{(0,1), (1,2), (2,3)}`. -/
theorem line_topology_path_witness :
    (mkLineTopology 4).n_qubits = 4 ∧
    (mkLineTopology 4).graph.nodes = Finset.range 4 ∧
    (mkLineTopology 4).graph.edges =
      (Finset.range 3).image (fun i => (i, i + 1)) :=
  line_topology_path 4 (by decide)

/-! ## Diagonal rectangle topology (C5) -/

/-- One cell step adds exactly the cell's five nodes. -/
theorem diagCellStep_nodes (g : NXGraph (Int × Int)) (r c : Nat) :
    (diagCellStep g r c).nodes = g.nodes ∪ cellNodes r c := by
  ext p
  simp only [diagCellStep, NXGraph.addEdge, cellNodes, Finset.mem_insert,
    Finset.mem_singleton, Finset.mem_union]
  tauto

/-- One row of the double loop adds the row's cells' nodes. -/
theorem diagRow_nodes (r w : Nat) (g : NXGraph (Int × Int)) :
    ((List.range w).foldl (fun g c => diagCellStep g r c) g).nodes =
      g.nodes ∪ (Finset.range w).biUnion (fun c => cellNodes r c) := by
  induction w generalizing g with
  | zero => simp
  | succ w ih =>
      rw [List.range_succ, List.foldl_append, List.foldl_cons, List.foldl_nil,
        diagCellStep_nodes, ih, Finset.range_succ, Finset.biUnion_insert]
      ext p
      simp only [Finset.mem_union]
      tauto

/-- The node set of the constructed graph is the union of all cells' nodes.
-/
theorem diagRectGraph_nodes (w h : Nat) :
    (diagRectGraph w h).nodes =
      (Finset.range h).biUnion
        (fun r => (Finset.range w).biUnion (fun c => cellNodes r c)) := by
  unfold diagRectGraph
  induction h with
  | zero => simp [NXGraph.empty]
  | succ h ih =>
      rw [List.range_succ, List.foldl_append, List.foldl_cons, List.foldl_nil,
        diagRow_nodes, ih, Finset.range_succ, Finset.biUnion_insert]
      ext p
      simp only [Finset.mem_union]
      tauto

/-- For `w, h ≥ 1` the union of the cells' nodes is exactly the `w*h` cell
centres together with the `(w+1)*(h+1)` neighbour nodes. -/
theorem diag_node_set_eq (w h : Nat) (hw : 1 ≤ w) (hh : 1 ≤ h) :
    (Finset.range h).biUnion
        (fun r => (Finset.range w).biUnion (fun c => cellNodes r c)) =
      ((Finset.range w ×ˢ Finset.range h).image centerMap) ∪
        ((Finset.range (w + 1) ×ˢ Finset.range (h + 1)).image oddMap) := by
  ext p
  simp only [Finset.mem_biUnion, Finset.mem_union, Finset.mem_image,
    Finset.mem_product, Finset.mem_range, cellNodes, Finset.mem_insert,
    Finset.mem_singleton, centerMap, oddMap]
  constructor
  · rintro ⟨r, hr, c, hc, hp⟩
    rcases hp with hp | hp | hp | hp | hp <;> rw [hp]
    · exact Or.inl ⟨(c, r), ⟨hc, hr⟩, rfl⟩
    · exact Or.inr ⟨(c, r + 1), ⟨by omega, by omega⟩,
        by simp only [Prod.mk.injEq]; constructor <;> omega⟩
    · exact Or.inr ⟨(c, r), ⟨by omega, by omega⟩, rfl⟩
    · exact Or.inr ⟨(c + 1, r), ⟨by omega, by omega⟩,
        by simp only [Prod.mk.injEq]; constructor <;> omega⟩
    · exact Or.inr ⟨(c + 1, r + 1), ⟨by omega, by omega⟩,
        by simp only [Prod.mk.injEq]; constructor <;> omega⟩
  · rintro (⟨⟨c, r⟩, ⟨hc, hr⟩, hp⟩ | ⟨⟨a, b⟩, ⟨ha, hb⟩, hp⟩)
    · subst hp
      exact ⟨r, hr, c, hc, Or.inl rfl⟩
    · subst hp
      by_cases haw : a < w <;> by_cases hbh : b < h
      · exact ⟨b, by omega, a, by omega, Or.inr (Or.inr (Or.inl rfl))⟩
      · exact ⟨h - 1, by omega, a, by omega, Or.inr (Or.inl (by
          simp only [Prod.mk.injEq]; constructor <;> omega))⟩
      · exact ⟨b, by omega, w - 1, by omega,
          Or.inr (Or.inr (Or.inr (Or.inl (by
            simp only [Prod.mk.injEq]; constructor <;> omega))))⟩
      · exact ⟨h - 1, by omega, w - 1, by omega,
          Or.inr (Or.inr (Or.inr (Or.inr (by
            simp only [Prod.mk.injEq]; constructor <;> omega))))⟩

/-- There are `w * h` cell centres. -/
theorem centers_card (w h : Nat) :
    ((Finset.range w ×ˢ Finset.range h).image centerMap).card = w * h := by
  rw [Finset.card_image_of_injOn, Finset.card_product, Finset.card_range,
    Finset.card_range]
  intro p _ q _ hpq
  unfold centerMap at hpq
  rw [Prod.mk.injEq] at hpq
  rw [Prod.ext_iff]
  omega

/-- There are `(w+1) * (h+1)` neighbour nodes. -/
theorem odds_card (w h : Nat) :
    ((Finset.range (w + 1) ×ˢ Finset.range (h + 1)).image oddMap).card =
      (w + 1) * (h + 1) := by
  rw [Finset.card_image_of_injOn, Finset.card_product, Finset.card_range,
    Finset.card_range]
  intro p _ q _ hpq
  unfold oddMap at hpq
  rw [Prod.mk.injEq] at hpq
  rw [Prod.ext_iff]
  omega

/-- Centres have even coordinate sum, neighbours odd: the two sets are
disjoint. -/
theorem centers_disjoint_odds (w h : Nat) :
    Disjoint ((Finset.range w ×ˢ Finset.range h).image centerMap)
      ((Finset.range (w + 1) ×ˢ Finset.range (h + 1)).image oddMap) := by
  rw [Finset.disjoint_left]
  intro p hp hq
  obtain ⟨⟨c, r⟩, _, hpc⟩ := Finset.mem_image.mp hp
  obtain ⟨⟨a, b⟩, _, hpo⟩ := Finset.mem_image.mp hq
  rw [← hpo] at hpc
  unfold centerMap oddMap at hpc
  rw [Prod.mk.injEq] at hpc
  omega

/-- For `w, h ≥ 1` the constructed graph has exactly
`2*w*h + w + h + 1` nodes. -/
theorem diagRectGraph_nodes_card (w h : Nat) (hw : 1 ≤ w) (hh : 1 ≤ h) :
    (diagRectGraph w h).nodes.card = 2 * w * h + w + h + 1 := by
  rw [diagRectGraph_nodes, diag_node_set_eq w h hw hh,
    Finset.card_union_of_disjoint (centers_disjoint_odds w h),
    centers_card, odds_card]
  ring

/-- Counterexample to C5 as stated: at `width = height = 0` the constructed
graph is empty (0 nodes) while the formula gives 1, so the defensive
assertion fires and construction raises `AssertionError` instead of
yielding a topology with `2*0*0 + 0 + 0 + 1 = 1` nodes. -/
theorem diag_rect_zero_counterexample :
    mkDiagonalRectangleTopology 0 0 = .error .assertionError ∧
    (diagRectGraph 0 0).nodes.card = 0 :=
  ⟨rfl, rfl⟩

/-- C5 (amended): for all `width, height ≥ 1`,
`DiagonalRectangleTopology(width, height)` constructs successfully and has
exactly `2*width*height + width + height + 1` nodes (so the defensive
assertion passes); for `width = 0` or `height = 0` the graph is empty and
the assertion raises instead. -/
theorem diag_rect_node_count (w h : Nat) (hw : 1 ≤ w) (hh : 1 ≤ h) :
    (diagRectGraph w h).nodes.card = 2 * w * h + w + h + 1 ∧
    mkDiagonalRectangleTopology w h =
      .ok { width := w, height := h,
            name := toString w ++ "-" ++ toString h ++ "-diagonal-rectangle",
            graph := diagRectGraph w h,
            n_qubits := 2 * w * h + w + h + 1 } := by
  have hcard := diagRectGraph_nodes_card w h hw hh
  refine ⟨hcard, ?_⟩
  unfold mkDiagonalRectangleTopology
  rw [if_pos hcard.symm]

/-- Witness for the amended C5 at `width = 2, height = 3`:
`2*2*3 + 2 + 3 + 1 = 18` nodes and a successful construction. -/
theorem diag_rect_node_count_witness :
    (diagRectGraph 2 3).nodes.card = 2 * 2 * 3 + 2 + 3 + 1 ∧
    mkDiagonalRectangleTopology 2 3 =
      .ok { width := 2, height := 3,
            name := toString 2 ++ "-" ++ toString 3 ++ "-diagonal-rectangle",
            graph := diagRectGraph 2 3,
            n_qubits := 2 * 2 * 3 + 2 + 3 + 1 } :=
  diag_rect_node_count 2 3 (by decide) (by decide)

/-! ## Placement deduplication (C7) -/

/-- With injective values, inverting then applying the dict recovers each
mapping's key. -/
theorem applyMap_invert {m : Mono} (hvals : (m.map Prod.snd).Nodup) :
    ∀ kv ∈ m, applyMap (invertMap m) kv.2 = kv.1 := by
  induction m with
  | nil => intro kv hkv; cases hkv
  | cons kv0 rest ih =>
      intro kv hkv
      rw [List.map_cons, List.nodup_cons] at hvals
      have hinv : invertMap (kv0 :: rest) =
          (kv0.2, kv0.1) :: invertMap rest := rfl
      rw [hinv]
      unfold applyMap
      rw [List.find?_cons]
      by_cases heq : kv0.2 = kv.2
      · have hdec : (decide ((kv0.2, kv0.1).1 = kv.2)) = true := by
          simp [heq]
        rw [hdec]
        cases hkv with
        | head => rfl
        | tail _ hkv' =>
            exfalso
            apply hvals.1
            rw [heq]
            exact List.mem_map.mpr ⟨kv, hkv', rfl⟩
      · have hdec : (decide ((kv0.2, kv0.1).1 = kv.2)) = false := by
          simp [heq]
        rw [hdec]
        cases hkv with
        | head => exact absurd rfl heq
        | tail _ hkv' => exact ih hvals.2 kv hkv'

/-- Relabeling the small graph along the inverted mapping of a valid
monomorphism uses exactly the mapping's big-node key set. -/
theorem relabelNodes_invert_nodes {small : NXGraph Nat} {m : Mono}
    (h : isValidMono small m = true) :
    (relabelNodes small (invertMap m)).nodes = monoKeys m := by
  unfold isValidMono at h
  simp only [Bool.and_eq_true, decide_eq_true_eq] at h
  obtain ⟨⟨hkeys, hvals⟩, hcover⟩ := h
  unfold relabelNodes monoKeys
  ext k
  simp only [Finset.mem_image, List.mem_toFinset, List.mem_map]
  constructor
  · rintro ⟨v, hv, rfl⟩
    rw [← hcover] at hv
    obtain ⟨kv, hkv, hkveq⟩ := List.mem_map.mp (List.mem_toFinset.mp hv)
    subst hkveq
    exact ⟨kv, hkv, (applyMap_invert hvals kv hkv).symm⟩
  · rintro ⟨kv, hkv, rfl⟩
    refine ⟨kv.2, ?_, applyMap_invert hvals kv hkv⟩
    rw [← hcover]
    exact List.mem_toFinset.mpr (List.mem_map.mpr ⟨kv, hkv, rfl⟩)

/-- Every entry of a dict insertion is an old entry or the inserted pair. -/
theorem mem_dictInsert {K V : Type} [DecidableEq K] {d : List (K × V)}
    {k : K} {v : V} {p : K × V} (h : p ∈ dictInsert d k v) :
    p ∈ d ∨ p = (k, v) := by
  unfold dictInsert at h
  by_cases hmem : d.any (fun kv => kv.1 = k) = true
  · rw [if_pos hmem] at h
    obtain ⟨kv, hkv, hkveq⟩ := List.mem_map.mp h
    by_cases hk : kv.1 = k
    · rw [if_pos hk] at hkveq
      exact Or.inr hkveq.symm
    · rw [if_neg hk] at hkveq
      exact Or.inl (hkveq ▸ hkv)
  · rw [if_neg hmem] at h
    rcases List.mem_append.mp h with h' | h'
    · exact Or.inl h'
    · exact Or.inr (List.mem_singleton.mp h')

/-- The keys after a dict insertion: unchanged when present, appended when
fresh. -/
theorem dictInsert_keys {K V : Type} [DecidableEq K] (d : List (K × V))
    (k : K) (v : V) :
    (dictInsert d k v).map Prod.fst =
      (if k ∈ d.map Prod.fst then d.map Prod.fst
       else d.map Prod.fst ++ [k]) := by
  unfold dictInsert
  by_cases hmem : d.any (fun kv => kv.1 = k) = true
  · rw [if_pos hmem]
    have hk : k ∈ d.map Prod.fst := by
      rw [List.any_eq_true] at hmem
      obtain ⟨kv, hkv, hkeq⟩ := hmem
      rw [decide_eq_true_eq] at hkeq
      exact List.mem_map.mpr ⟨kv, hkv, hkeq⟩
    rw [if_pos hk, List.map_map]
    apply List.map_congr_left
    intro kv _
    by_cases hkk : kv.1 = k <;> simp [hkk]
  · rw [if_neg hmem]
    have hk : k ∉ d.map Prod.fst := by
      intro hkin
      obtain ⟨kv, hkv, hkeq⟩ := List.mem_map.mp hkin
      rw [List.any_eq_true] at hmem
      exact hmem ⟨kv, hkv, by simp [hkeq]⟩
    rw [if_neg hk, List.map_append]
    rfl

/-- Every surviving dict entry came from the enumeration and is keyed by
its own node set. -/
theorem foldl_dictInsert_mem (l : List Mono)
    (acc : List (Finset Nat × Mono)) :
    ∀ p ∈ l.foldl (fun d m => dictInsert d (monoKeys m) m) acc,
      p ∈ acc ∨ (p.2 ∈ l ∧ monoKeys p.2 = p.1) := by
  induction l generalizing acc with
  | nil => intro p hp; exact Or.inl hp
  | cons m rest ih =>
      intro p hp
      rw [List.foldl_cons] at hp
      rcases ih (dictInsert acc (monoKeys m) m) p hp with hin | ⟨hmem, hk⟩
      · rcases mem_dictInsert hin with hacc | heq
        · exact Or.inl hacc
        · subst heq
          exact Or.inr ⟨by simp, rfl⟩
      · exact Or.inr ⟨by simp [hmem], hk⟩

/-- The key list of the deduplication dict is the order-preserving
deduplication of the enumerated node sets. -/
theorem foldl_dictInsert_keys (l : List Mono)
    (acc : List (Finset Nat × Mono)) :
    (l.foldl (fun d m => dictInsert d (monoKeys m) m) acc).map Prod.fst =
      (l.map monoKeys).foldl
        (fun ks k => if k ∈ ks then ks else ks ++ [k])
        (acc.map Prod.fst) := by
  induction l generalizing acc with
  | nil => rfl
  | cons m rest ih =>
      rw [List.foldl_cons, List.map_cons, List.foldl_cons,
        ih (dictInsert acc (monoKeys m) m), dictInsert_keys]

/-- Order-preserving deduplication with a duplicate-free accumulator stays
duplicate-free. -/
theorem foldl_dedup_nodup {α : Type} [DecidableEq α] (l : List α)
    (acc : List α) (h : acc.Nodup) :
    (l.foldl (fun ks k => if k ∈ ks then ks else ks ++ [k]) acc).Nodup := by
  induction l generalizing acc with
  | nil => exact h
  | cons k rest ih =>
      rw [List.foldl_cons]
      by_cases hk : k ∈ acc
      · rw [if_pos hk]
        exact ih acc h
      · rw [if_neg hk]
        refine ih _ ?_
        rw [List.nodup_append]
        exact ⟨h, List.nodup_singleton k, by
          intro x hx hx'
          rw [List.mem_singleton] at hx'
          subst hx'
          exact hk hx⟩

/-- `pyDedup` output is duplicate-free. -/
theorem pyDedup_nodup {α : Type} [DecidableEq α] (l : List α) :
    (pyDedup l).Nodup :=
  foldl_dedup_nodup l [] List.nodup_nil

/-- C7: given any enumeration of matcher monomorphisms (each injective and
covering the small graph's nodes), the node sets of the placements returned
by `get_placements` are exactly the order-preserving deduplication of the
enumerated mappings' big-node sets — in particular pairwise distinct, so no
two returned placements ever use an identical big-topology node set, and
two enumerated monomorphisms collapse exactly when their big-node sets
coincide, regardless of the node-to-node correspondence. -/
theorem get_placements_distinct_node_sets (monos : List Mono)
    (small : NXGraph Nat)
    (hv : ∀ m ∈ monos, isValidMono small m = true) :
    (get_placements monos small).map NXGraph.nodes =
      pyDedup (monos.map monoKeys) ∧
    ((get_placements monos small).map NXGraph.nodes).Nodup := by
  have hmap : (get_placements monos small).map NXGraph.nodes =
      (dedupeFold monos).map Prod.fst := by
    unfold get_placements
    rw [List.map_map]
    apply List.map_congr_left
    intro p hp
    rcases foldl_dictInsert_mem monos [] p hp with hnil | ⟨hpmem, hpkeys⟩
    · cases hnil
    · show (relabelNodes small (invertMap p.2)).nodes = p.1
      rw [relabelNodes_invert_nodes (hv p.2 hpmem), hpkeys]
  have hkeys : (dedupeFold monos).map Prod.fst =
      pyDedup (monos.map monoKeys) :=
    foldl_dictInsert_keys monos []
  refine ⟨hmap.trans hkeys, ?_⟩
  rw [hmap, hkeys]
  exact pyDedup_nodup _

/-- Witness for C7: the two `{5, 6}` monomorphisms collapse into one
placement and the returned node sets `[{5, 6}, {7, 8}]` are pairwise
distinct. -/
theorem get_placements_distinct_node_sets_witness :
    (get_placements exampleMonos smallPathGraph).map NXGraph.nodes =
      pyDedup (exampleMonos.map monoKeys) ∧
    ((get_placements exampleMonos smallPathGraph).map NXGraph.nodes).Nodup :=
  get_placements_distinct_node_sets exampleMonos smallPathGraph (by decide)
